import Mathlib

/-!
Verification of the directory-to-menu generator (`max2025_menugenerator.py`).

The Python module is embedded shallowly:

* the filesystem and the host path library are an explicit environment `FS`
  (`os.path.isdir`, `os.listdir`, `os.path.isfile`, reading a file's lines,
  and `os.path.normpath`, which is kept as an abstract capability since only
  its equality test is used by the code);
* `os.path.basename`, `str.rstrip("\\/")` and `os.path.join` are modelled
  concretely on the character lists of the strings involved;
* `_build_tree` and `_create_menu_from_tree` recurse on the (finite) directory
  tree; the embedding makes that recursion structural with a fuel parameter
  that is consumed once per directory level, and every statement about them is
  conditional on enough fuel (or on the call having produced a result);
* `read_macro_file` can raise `IndexError` (`line.split()[1]`), so fallible
  code returns `Option`: `none` is an uncaught Python exception;
* menu containers are modelled by the ordered list of entries created in them,
  and the quad-menu builder by the ordered trace of host calls it performs.
-/

namespace MenuGen

/-- Environment: the filesystem operations and `os.path.normpath` as used by
the module.  `readLines` gives the lines of a text file (the iteration
`for line in macro_file`), `listdir` the raw (unsorted) directory listing. -/
structure FS where
  isDir : String → Bool
  listdir : String → List String
  isFile : String → Bool
  readLines : String → List String
  normpath : String → String

/-! ### Path helpers (`os.path.basename`, `rstrip("\\/")`, `os.path.join`) -/

/-- A path separator: `/` or `\`. -/
def isSep (c : Char) : Bool := c == '/' || c == '\\'

/-- `path.rstrip("\\/")`: drop trailing separators. -/
def rstripSeps (s : String) : String :=
  String.mk ((s.data.reverse.dropWhile isSep).reverse)

/-- `os.path.basename`: the final path segment, i.e. everything after the
last separator. -/
def basename (s : String) : String :=
  String.mk ((s.data.reverse.takeWhile (fun c => !isSep c)).reverse)

/-- The node name computed by `_build_tree`:
`os.path.basename(path.rstrip("\\/"))`, falling back to
`os.path.basename(path)` when that is empty. -/
def nodeName (p : String) : String :=
  let n := basename (rstripSeps p)
  if n = "" then basename p else n

/-- `os.path.join(p, i)`: `i` if `p` is empty or `i` is absolute, otherwise
`p ++ i` with a separator inserted unless `p` already ends in one. -/
def joinPath (p i : String) : String :=
  if p.data.isEmpty then i
  else if isSep (i.data.headD 'x') then i
  else if isSep (p.data.reverse.headD 'x') then String.mk (p.data ++ i.data)
  else String.mk (p.data ++ '/' :: i.data)

/-! ### The directory tree (`_build_tree`) -/

/-- `node["type"]`: `"directory"` or `"file"`. -/
inductive NodeType where
  | directory
  | file
deriving DecidableEq

/-- The dictionaries built by `_build_tree`:
`{"name": ..., "path": ..., "type": ..., "children": [...]}`. -/
inductive TreeNode where
  | mk (name : String) (path : String) (type : NodeType) (children : List TreeNode)

def TreeNode.name : TreeNode → String
  | .mk n _ _ _ => n

def TreeNode.path : TreeNode → String
  | .mk _ p _ _ => p

def TreeNode.type : TreeNode → NodeType
  | .mk _ _ t _ => t

def TreeNode.children : TreeNode → List TreeNode
  | .mk _ _ _ ch => ch

/-- Python's `sorted` on a list of strings (stable sort for the total
lexicographic code-point order, so any sorted permutation: insertion sort).
Strings are compared through their character lists, which is the same order
as `String`'s own (`String.le_iff_toList_le`). -/
def pySorted (l : List String) : List String :=
  List.insertionSort (fun a b => a.data ≤ b.data) l

/-- `_build_tree(path)`: one node per path; for a directory, one child per
entry of `sorted(os.listdir(path))`, built recursively at `os.path.join(path,
item)`.  `fuel` bounds the recursion depth (the Python recursion is on the
finite filesystem); with fuel exhausted a directory gets no children, so
statements about children assume one unit of fuel per level.  The `is_root`
argument of the source is dropped: it does not affect the result
(`node_name if not is_root else node_name`). -/
def buildTree (fs : FS) : Nat → String → TreeNode
  | 0, path =>
      TreeNode.mk (nodeName path) path
        (if fs.isDir path then .directory else .file) []
  | fuel+1, path =>
      TreeNode.mk (nodeName path) path
        (if fs.isDir path then .directory else .file)
        (if fs.isDir path then
          (pySorted (fs.listdir path)).map (fun item => buildTree fs fuel (joinPath path item))
        else [])

/-! ### The descriptor reader (`read_macro_file`) -/

/-- Substring test: `sub in hay` (Python's `in` on strings),
auxiliary on character lists. -/
def containsSubAux (sub : List Char) : List Char → Bool
  | [] => sub.isPrefixOf []
  | c :: t => sub.isPrefixOf (c :: t) || containsSubAux sub t

/-- `sub in hay` for strings. -/
def containsStr (hay sub : String) : Bool := containsSubAux sub.data hay.data

/-- Python `str.strip()`: drop leading and trailing whitespace. -/
def pyStrip (s : String) : String :=
  String.mk (((s.data.dropWhile Char.isWhitespace).reverse.dropWhile Char.isWhitespace).reverse)

/-- Auxiliary for Python `str.split()` with no argument: accumulate the
current word (reversed) and split on whitespace runs. -/
def pyWordsAux : List Char → List Char → List (List Char)
  | [], acc => if acc.isEmpty then [] else [acc.reverse]
  | c :: cs, acc =>
      if c.isWhitespace then
        if acc.isEmpty then pyWordsAux cs [] else acc.reverse :: pyWordsAux cs []
      else pyWordsAux cs (c :: acc)

/-- Python `line.split()`: maximal runs of non-whitespace characters. -/
def pySplit (s : String) : List String := (pyWordsAux s.data []).map String.mk

/-- Auxiliary for Python `line.split('"')`. -/
def splitQuotesAux : List Char → List Char → List (List Char)
  | [], acc => [acc.reverse]
  | c :: cs, acc =>
      if c = '"' then acc.reverse :: splitQuotesAux cs [] else splitQuotesAux cs (c :: acc)

/-- Python `line.split('"')`: split at every double quote, keeping empty
pieces (so the result has one more piece than there are quotes). -/
def splitQuotes (s : String) : List String := (splitQuotesAux s.data []).map String.mk

/-- Python `str.lower()` (ASCII case folding suffices for `.mcr`). -/
def pyLower (s : String) : String := String.mk (s.data.map Char.toLower)

/-- `child["path"].lower().endswith(".mcr")`. -/
def hasMcrExt (p : String) : Bool := List.isSuffixOf ['.', 'm', 'c', 'r'] (pyLower p).data

/-- The preprocessed lines of `read_macro_file`:
`[line.strip() for line in macro_file if not line.strip().startswith("--")]`. -/
def preLines (fs : FS) (p : String) : List String :=
  ((fs.readLines p).map pyStrip).filter (fun l => !(List.isPrefixOf ['-', '-'] l.data))

/-- The scanning loop of `read_macro_file` over the preprocessed lines, with
the running `macro_name` and `macro_category`.  `none` models the uncaught
`IndexError` of `line.split()[1]` when a line contains the start marker while
the name is still empty but has fewer than two whitespace-separated tokens.
The loop breaks early once both fields are non-empty. -/
def scanLines (sm cm : String) : List String → String → String → Option (String × String)
  | [], n, c => some (n, c)
  | l :: ls, n, c =>
      match (if containsStr l sm && n == "" then (pySplit l)[1]? else some n) with
      | none => none
      | some n' =>
          let parts := splitQuotes l
          let c' := if containsStr l cm && c == "" && decide (2 ≤ parts.length) then
              parts.getD 1 "" else c
          if n' != "" && c' != "" then some (n', c') else scanLines sm cm ls n' c'

/-- `read_macro_file(input_path, macro_start_identifier, category_identifier)`:
`("", "")` for a missing file, otherwise the scan of the preprocessed lines;
`none` is an uncaught exception. -/
def readMacroFile (fs : FS) (p sm cm : String) : Option (String × String) :=
  if fs.isFile p then scanLines sm cm (preLines fs p) "" "" else some ("", "")

/-! ### The menu synthesizer (`_create_menu_from_tree`)

A menu container is modelled by the ordered list of entries created in it;
`_create_menu_from_tree(parent_menu, node)` becomes a function returning the
entries this call appends to `parent_menu` (`none` propagates an exception
raised by the descriptor reader).  The generated uuids are not modelled: the
source draws a fresh `uuid.uuid4()` per element and never inspects it. -/

/-- An entry created in a menu container: `createAction(uuid, tag, label)` or
`createSubMenu(uuid, name)` together with the entries later created inside
the returned submenu container. -/
inductive MenuEntry where
  | action (tag : Nat) (label : String)
  | submenu (name : String) (entries : List MenuEntry)

/-- First-pass body for one child: for a `file` child whose lowercased path
ends in `.mcr`, read the descriptor and, when both fields are non-empty,
create one action with tag `647394` and label `name ++ "`" ++ category`
(literal backtick separator); otherwise create nothing. -/
def fileAction (fs : FS) (c : TreeNode) : Option (List MenuEntry) :=
  if c.type = NodeType.file ∧ hasMcrExt c.path = true then
    match readMacroFile fs c.path "macroScript" "category:" with
    | none => none
    | some (n, cat) =>
        if n ≠ "" ∧ cat ≠ "" then some [MenuEntry.action 647394 (n ++ "`" ++ cat)]
        else some []
  else some []

/-- The first `for child in node["children"]` loop: actions created in the
current menu, in stored child order. -/
def firstPass (fs : FS) : List TreeNode → Option (List MenuEntry)
  | [] => some []
  | c :: cs =>
      match fileAction fs c, firstPass fs cs with
      | some as, some rest => some (as ++ rest)
      | _, _ => none

/-- The second `for child in node["children"]` loop: for every `directory`
child run the recursion `f` (which returns the entries that the recursive
call appends to the current menu). -/
def secondPassWith (f : TreeNode → Option (List MenuEntry)) : List TreeNode → Option (List MenuEntry)
  | [] => some []
  | c :: cs =>
      if c.type = NodeType.directory then
        match f c, secondPassWith f cs with
        | some es, some rest => some (es ++ rest)
        | _, _ => none
      else secondPassWith f cs

/-- `_create_menu_from_tree(parent_menu, node)` as the entries appended to
`parent_menu`: if `os.path.normpath(node["path"])` equals the normalized
configured root, the caller's container is reused and the two child passes
write into it directly; otherwise a `directory` node contributes exactly one
fresh submenu holding its two passes, and a `file` node returns at once.
`fuel` is consumed once per directory level (`none` on exhaustion, which is
never reached from fuel above the tree depth). -/
def synthNode (fs : FS) (root : String) : Nat → TreeNode → Option (List MenuEntry)
  | 0, _ => none
  | fuel+1, .mk name path t ch =>
      if fs.normpath path = fs.normpath root then
        match firstPass fs ch, secondPassWith (synthNode fs root fuel) ch with
        | some as, some ss => some (as ++ ss)
        | _, _ => none
      else
        match t with
        | .file => some []
        | .directory =>
            match firstPass fs ch, secondPassWith (synthNode fs root fuel) ch with
            | some as, some ss => some [MenuEntry.submenu name (as ++ ss)]
            | _, _ => none

/-- The entries the two child passes create in the current menu context. -/
def synthChildren (fs : FS) (root : String) (fuel : Nat) (ch : List TreeNode) :
    Option (List MenuEntry) :=
  match firstPass fs ch, secondPassWith (synthNode fs root fuel) ch with
  | some as, some ss => some (as ++ ss)
  | _, _ => none

/-! ### The quad menu builder (`define_quad_menu`) -/

/-- A host call performed by `define_quad_menu`, in order.  The synthesized
menu contents are carried separately (see `defineQuadMenu`). -/
inductive QuadEvent where
  | createQuadMenu (label : String)
  | setRightClickModifiers (modifier : String)
  | warnInvalidModifier (keys : String)
  | warnInvalidPosition (pos : String)
  | createMenu (position : String)
deriving DecidableEq

/-- The `modifier_keys_map` dictionary of `define_quad_menu`. -/
def modifierKeysMap : List (String × String) :=
  [("NONE", "nonePressed"),
   ("ALT", "altPressed"),
   ("CTRL", "controlPressed"),
   ("CTRL+ALT", "controlAndAltPressed"),
   ("CTRL+SHIFT", "shiftAndControlPressed"),
   ("SHIFT+ALT+CTRL", "shiftAndAltAndControlPressed"),
   ("SHIFT", "shiftPressed"),
   ("SHIFT+ALT", "shiftAndAltPressed")]

/-- The `quad_menu_positions` dictionary of `define_quad_menu`. -/
def quadMenuPositions : List (String × String) :=
  [("TOP_LEFT", "TopLeft"),
   ("TOP_RIGHT", "TopRight"),
   ("BOTTOM_RIGHT", "BottomRight"),
   ("BOTTOM_LEFT", "BottomLeft")]

/-- Python `dict` lookup (`key in d` / `d[key]`). -/
def lookupStr (m : List (String × String)) (k : String) : Option String :=
  (m.find? (fun kv => kv.1 == k)).map (fun kv => kv.2)

/-- Modifier handling of `define_quad_menu`: set the mapped right-click
modifier, or warn and set nothing (leaving the host default in effect). -/
def modEvents (keys : String) : List QuadEvent :=
  match lookupStr modifierKeysMap keys with
  | some v => [QuadEvent.setRightClickModifiers v]
  | none => [QuadEvent.warnInvalidModifier keys]

/-- Position handling of `define_quad_menu`: create the quadrant menu at the
mapped position, or warn and create it at the default `TopRight`. -/
def posEvents (pos : String) : List QuadEvent :=
  match lookupStr quadMenuPositions pos with
  | some v => [QuadEvent.createMenu v]
  | none => [QuadEvent.warnInvalidPosition pos, QuadEvent.createMenu "TopRight"]

/-- `define_quad_menu`: create the quad menu, handle the modifier keys, then
create the quadrant menu and synthesize the cached tree into it.  The result
is the ordered trace of host calls plus the entries synthesized into the
created quadrant menu; `none` if the synthesis raised.  (The bare
`rt.name(...)` call of the source has no effect and is not modelled.) -/
def defineQuadMenu (fs : FS) (root quadName keys pos : String) (fuel : Nat)
    (tree : TreeNode) : Option (List QuadEvent × List MenuEntry) :=
  match synthNode fs root fuel tree with
  | none => none
  | some es =>
      some (QuadEvent.createQuadMenu quadName :: (modEvents keys ++ posEvents pos), es)

/-! ### Characterizations used by the statements -/

/-- The category value the category clause of `read_macro_file` extracts from
one line: `line.split('"')[1]` when the line has at least one double quote
(at least two pieces), `""` otherwise. -/
def catOfLine (l : String) : String :=
  let parts := splitQuotes l
  if 2 ≤ parts.length then parts.getD 1 "" else ""

/-- The category `read_macro_file`'s scan ends with: the extraction from the
first line that contains the category marker and yields non-empty text
(a line whose extraction is empty does not lock the field). -/
def firstCat (cm : String) : List String → String
  | [] => ""
  | l :: ls => if containsStr l cm = true ∧ catOfLine l ≠ "" then catOfLine l else firstCat cm ls

/-- Strictly increasing in the lexicographic code-point order. -/
def strictChainB : List String → Bool
  | [] => true
  | [_] => true
  | a :: b :: rest => decide (a.data < b.data) && strictChainB (b :: rest)

/-- Down to depth `k`, every node's children are strictly sorted by name. -/
def sortedNamesB : Nat → TreeNode → Bool
  | 0, _ => true
  | k+1, .mk _ _ _ ch => strictChainB (ch.map TreeNode.name) && ch.all (sortedNamesB k)

/-- A plain directory-entry name: non-empty and without path separators
(`os.listdir` returns such names). -/
def validNameB (i : String) : Bool := !i.data.isEmpty && i.data.all (fun c => !isSep c)

/-- A filesystem whose directory listings are duplicate-free lists of plain
entry names. -/
def ValidFS (fs : FS) : Prop :=
  ∀ p, (fs.listdir p).Nodup ∧ ∀ i ∈ fs.listdir p, validNameB i = true

/-! ### A small concrete environment used to instantiate the theorems

The layout of the spec's scenario: a root `r` with `a.mcr` (macro
`PaintTool`, category `Paint`) and a subdirectory `Sub` holding `b.mcr`
(macro `EraseTool`, category `Paint`); plus some descriptor files outside
the root exercising the reader's edge cases. -/

def demoFS : FS where
  isDir := fun p => p = "r" || p = "r/Sub"
  listdir := fun p =>
    if p = "r" then ["a.mcr", "Sub"]
    else if p = "r/Sub" then ["b.mcr"]
    else []
  isFile := fun p =>
    p = "r/a.mcr" || p = "r/Sub/b.mcr" || p = "bad/one.mcr" || p = "bad/rev.mcr" ||
      p = "bad/c4.mcr" || p = "bad/c6.mcr"
  readLines := fun p =>
    if p = "r/a.mcr" then ["-- a paint tool", "macroScript PaintTool (", "category: \"Paint\""]
    else if p = "r/Sub/b.mcr" then ["macroScript EraseTool", "category: \"Paint\""]
    else if p = "bad/one.mcr" then ["macroScript"]
    else if p = "bad/rev.mcr" then ["-- x", "category: \"Bar\"", "-- y", "macroScript Foo"]
    else if p = "bad/c4.mcr" then ["do macroScript Foo", "category: \"Bar\""]
    else if p = "bad/c6.mcr" then ["category: none", "category: \"Bar"]
    else []
  normpath := fun s => s

def demoSub : TreeNode :=
  TreeNode.mk "Sub" "r/Sub" .directory [TreeNode.mk "b.mcr" "r/Sub/b.mcr" .file []]

def demoChildren : List TreeNode :=
  [demoSub, TreeNode.mk "a.mcr" "r/a.mcr" .file []]

def demoTree : TreeNode := TreeNode.mk "r" "r" .directory demoChildren

/-- The comparison used by `pySorted` is total. -/
instance : IsTotal String (fun a b => a.data ≤ b.data) :=
  ⟨fun a b => le_total a.data b.data⟩

/-- The comparison used by `pySorted` is transitive. -/
instance : IsTrans String (fun a b => a.data ≤ b.data) :=
  ⟨fun _ _ _ h1 h2 => le_trans h1 h2⟩

/-! ### Helper lemmas -/

/-- `_build_tree` on anything that is not a directory: a childless `file`
node (this includes nonexistent paths). -/
theorem buildTree_not_dir (fs : FS) (fuel : Nat) (p : String) (h : fs.isDir p = false) :
    buildTree fs fuel p = TreeNode.mk (nodeName p) p NodeType.file [] := by
  cases fuel <;> simp [buildTree, h]

/-- No branch of the position handling sets right-click modifiers. -/
theorem setRCM_not_mem_posEvents (v pos : String) :
    QuadEvent.setRightClickModifiers v ∉ posEvents pos := by
  unfold posEvents
  cases lookupStr quadMenuPositions pos <;> simp

/-! ### Claim theorems -/

/-- Claim C8: for every path that is not a directory (in particular every
nonexistent path), `_build_tree` returns — without raising — a leaf node of
kind `file` with an empty children sequence. -/
theorem build_tree_nonexistent_path (fs : FS) (fuel : Nat) (p : String)
    (h : fs.isDir p = false) :
    (buildTree fs fuel p).type = NodeType.file ∧
    (buildTree fs fuel p).children = [] ∧
    buildTree fs fuel p = TreeNode.mk (nodeName p) p NodeType.file [] := by
  rw [buildTree_not_dir fs fuel p h]
  exact ⟨rfl, rfl, rfl⟩

theorem build_tree_nonexistent_path_witness :
    (buildTree demoFS 5 "missing").type = NodeType.file ∧
    (buildTree demoFS 5 "missing").children = [] ∧
    buildTree demoFS 5 "missing" = TreeNode.mk (nodeName "missing") "missing" NodeType.file [] :=
  build_tree_nonexistent_path demoFS 5 "missing" (by decide)

/-- Claim C2: when the synthesizer is invoked on a node whose normalized path
equals the normalized configured root, it reuses the caller-supplied
container: the entries appended to that container are exactly the two child
passes' entries, with no wrapping submenu created for the node itself. -/
theorem root_node_reuses_container (fs : FS) (root : String) (fuel : Nat)
    (name path : String) (t : NodeType) (ch : List TreeNode)
    (h : fs.normpath path = fs.normpath root) :
    synthNode fs root (fuel+1) (TreeNode.mk name path t ch) = synthChildren fs root fuel ch ∧
    ∀ es, synthChildren fs root fuel ch = some es →
      synthNode fs root (fuel+1) (TreeNode.mk name path t ch) = some es := by
  have h1 : synthNode fs root (fuel+1) (TreeNode.mk name path t ch) =
      synthChildren fs root fuel ch := by
    simp only [synthNode, synthChildren, h, if_true]
  exact ⟨h1, fun es hes => h1.trans hes⟩

theorem root_node_reuses_container_witness :
    synthNode demoFS "r" 3 (TreeNode.mk "r" "r" NodeType.directory demoChildren) =
      synthChildren demoFS "r" 2 demoChildren ∧
    ∀ es, synthChildren demoFS "r" 2 demoChildren = some es →
      synthNode demoFS "r" 3 (TreeNode.mk "r" "r" NodeType.directory demoChildren) = some es :=
  root_node_reuses_container demoFS "r" 2 "r" "r" NodeType.directory demoChildren rfl

/-- Claim C10: if the configured root is not a directory (e.g. does not
exist), the cached tree is a single `file` node whose path is the root path,
and synthesizing it reuses the caller's container and creates nothing:
the build degrades to an empty menu instead of failing. -/
theorem missing_root_degrades (fs : FS) (fuelB fuelS : Nat) (root : String)
    (h : fs.isDir root = false) :
    buildTree fs fuelB root = TreeNode.mk (nodeName root) root NodeType.file [] ∧
    (buildTree fs fuelB root).path = root ∧
    synthNode fs root (fuelS+1) (buildTree fs fuelB root) = some [] := by
  have hb := buildTree_not_dir fs fuelB root h
  refine ⟨hb, by rw [hb]; rfl, ?_⟩
  rw [hb]
  simp [synthNode, firstPass, secondPassWith]

theorem missing_root_degrades_witness :
    buildTree demoFS 4 "gone" = TreeNode.mk (nodeName "gone") "gone" NodeType.file [] ∧
    (buildTree demoFS 4 "gone").path = "gone" ∧
    synthNode demoFS "gone" 3 (buildTree demoFS 4 "gone") = some [] :=
  missing_root_degrades demoFS 4 2 "gone" (by decide)

/-- Claim C9: with a modifier-key string outside the enumerated map, the quad
menu build still creates the quad menu, emits the warning, applies no
explicit right-click-modifier call (so the host default gating stays in
effect), still creates the quadrant menu, and completes. -/
theorem quad_menu_invalid_modifier (fs : FS) (root quadName keys pos : String)
    (fuel : Nat) (tree : TreeNode) (es : List MenuEntry)
    (hbad : lookupStr modifierKeysMap keys = none)
    (hsyn : synthNode fs root fuel tree = some es) :
    defineQuadMenu fs root quadName keys pos fuel tree =
      some (QuadEvent.createQuadMenu quadName ::
              (QuadEvent.warnInvalidModifier keys :: posEvents pos), es) ∧
    (∀ v, QuadEvent.setRightClickModifiers v ∉
        (QuadEvent.createQuadMenu quadName ::
          (QuadEvent.warnInvalidModifier keys :: posEvents pos))) ∧
    (∃ q, QuadEvent.createMenu q ∈ posEvents pos) := by
  refine ⟨?_, ?_, ?_⟩
  · unfold defineQuadMenu
    rw [hsyn]
    unfold modEvents
    rw [hbad]
    rfl
  · intro v
    simp only [List.mem_cons, not_or]
    exact ⟨by simp, by simp, setRCM_not_mem_posEvents v pos⟩
  · unfold posEvents
    cases lookupStr quadMenuPositions pos with
    | some v => exact ⟨v, by simp⟩
    | none => exact ⟨"TopRight", by simp⟩

theorem quad_menu_invalid_modifier_witness :
    defineQuadMenu demoFS "r" "Custom Tools Quad" "FOO" "TOP_RIGHT" 3 demoTree =
      some (QuadEvent.createQuadMenu "Custom Tools Quad" ::
              (QuadEvent.warnInvalidModifier "FOO" :: posEvents "TOP_RIGHT"),
            [MenuEntry.action 647394 "PaintTool`Paint",
             MenuEntry.submenu "Sub" [MenuEntry.action 647394 "EraseTool`Paint"]]) ∧
    (∀ v, QuadEvent.setRightClickModifiers v ∉
        (QuadEvent.createQuadMenu "Custom Tools Quad" ::
          (QuadEvent.warnInvalidModifier "FOO" :: posEvents "TOP_RIGHT"))) ∧
    (∃ q, QuadEvent.createMenu q ∈ posEvents "TOP_RIGHT") :=
  quad_menu_invalid_modifier demoFS "r" "Custom Tools Quad" "FOO" "TOP_RIGHT" 3 demoTree
    [MenuEntry.action 647394 "PaintTool`Paint",
     MenuEntry.submenu "Sub" [MenuEntry.action 647394 "EraseTool`Paint"]]
    (by decide) (by rfl)

/-- The first pass is the childwise concatenation of `fileAction`. -/
theorem firstPass_eq_mapM (fs : FS) (ch : List TreeNode) :
    firstPass fs ch = (ch.mapM (fileAction fs)).map List.flatten := by
  induction ch with
  | nil => rfl
  | cons c cs ih =>
      rw [firstPass, List.mapM_cons, ih]
      cases fileAction fs c with
      | none => rfl
      | some l =>
          cases List.mapM (fileAction fs) cs with
          | none => rfl
          | some rest => rfl

/-- Everything `fileAction` creates is an action entry. -/
theorem fileAction_actions (fs : FS) (c : TreeNode) (l : List MenuEntry)
    (h : fileAction fs c = some l) : ∀ e ∈ l, ∃ tg lab, e = MenuEntry.action tg lab := by
  unfold fileAction at h
  by_cases hc : c.type = NodeType.file ∧ hasMcrExt c.path = true
  · rw [if_pos hc] at h
    cases hread : readMacroFile fs c.path "macroScript" "category:" with
    | none => rw [hread] at h; cases h
    | some nc =>
        obtain ⟨n, cat⟩ := nc
        rw [hread] at h
        have h' : (if n ≠ "" ∧ cat ≠ "" then
            some [MenuEntry.action 647394 (n ++ "`" ++ cat)] else some []) = some l := h
        by_cases hn : n ≠ "" ∧ cat ≠ ""
        · rw [if_pos hn] at h'
          cases h'
          intro e he
          refine ⟨647394, n ++ "`" ++ cat, ?_⟩
          simpa using he
        · rw [if_neg hn] at h'
          cases h'
          intro e he
          cases he
  · rw [if_neg hc] at h
    cases h
    intro e he
    cases he

/-- Everything the first pass creates in the current menu is an action. -/
theorem firstPass_all_actions (fs : FS) : ∀ (ch : List TreeNode) (as : List MenuEntry),
    firstPass fs ch = some as → ∀ e ∈ as, ∃ tg lab, e = MenuEntry.action tg lab := by
  intro ch
  induction ch with
  | nil =>
      intro as h e he
      cases h
      cases he
  | cons c cs ih =>
      intro as h
      cases hc : fileAction fs c with
      | none => simp [firstPass, hc] at h
      | some l =>
          cases hcs : firstPass fs cs with
          | none => simp [firstPass, hc, hcs] at h
          | some rest =>
              simp only [firstPass, hc, hcs, Option.some.injEq] at h
              subst h
              intro e he
              rcases List.mem_append.mp he with h1 | h2
              · exact fileAction_actions fs c l hc e h1
              · exact ih rest hcs e h2

/-- A non-root directory node always lands in the caller's container as one
single submenu entry. -/
theorem synthNode_dir_shape (fs : FS) (root : String) (fuel : Nat)
    (name path : String) (ch' : List TreeNode) (es : List MenuEntry)
    (hne : fs.normpath path ≠ fs.normpath root)
    (h : synthNode fs root fuel (TreeNode.mk name path NodeType.directory ch') = some es) :
    ∃ inner, es = [MenuEntry.submenu name inner] := by
  cases fuel with
  | zero => cases h
  | succ fuel =>
      simp only [synthNode] at h
      rw [if_neg hne] at h
      cases h1 : firstPass fs ch' with
      | none => simp [h1] at h
      | some as =>
          cases h2 : secondPassWith (synthNode fs root fuel) ch' with
          | none => simp [h1, h2] at h
          | some ss =>
              simp only [h1, h2, Option.some.injEq] at h
              exact ⟨as ++ ss, h.symm⟩

/-- Everything the second pass creates in the current menu is a submenu,
as long as no directory child is normalized-path-equal to the root. -/
theorem secondPass_all_submenus (fs : FS) (root : String) (fuel : Nat) :
    ∀ (ch : List TreeNode) (ss : List MenuEntry),
      (∀ c ∈ ch, c.type = NodeType.directory → fs.normpath c.path ≠ fs.normpath root) →
      secondPassWith (synthNode fs root fuel) ch = some ss →
      ∀ e ∈ ss, ∃ m inner, e = MenuEntry.submenu m inner := by
  intro ch
  induction ch with
  | nil =>
      intro ss _ h e he
      cases h
      cases he
  | cons c cs ih =>
      intro ss hroot h
      by_cases hc : c.type = NodeType.directory
      · obtain ⟨cn, cp, ct, cch⟩ := c
        have hct : ct = NodeType.directory := hc
        subst hct
        rw [secondPassWith, if_pos hc] at h
        cases h1 : synthNode fs root fuel (TreeNode.mk cn cp NodeType.directory cch) with
        | none => rw [h1] at h; cases h
        | some es =>
            cases h2 : secondPassWith (synthNode fs root fuel) cs with
            | none => rw [h1, h2] at h; cases h
            | some rest =>
                rw [h1, h2] at h
                cases h
                have hne : fs.normpath cp ≠ fs.normpath root :=
                  hroot _ (List.mem_cons_self _ _) rfl
                obtain ⟨inner, hinner⟩ := synthNode_dir_shape fs root fuel cn cp cch es hne h1
                subst hinner
                intro e he
                rcases List.mem_append.mp he with h1' | h2'
                · refine ⟨cn, inner, ?_⟩
                  simpa using h1'
                · exact ih rest (fun d hd => hroot d (List.mem_cons_of_mem _ hd)) h2 e h2'
      · rw [secondPassWith, if_neg hc] at h
        exact ih ss (fun d hd => hroot d (List.mem_cons_of_mem _ hd)) h

/-- Claim C1: in the menu context for a directory with both `.mcr` file
children and directory children, every created action entry precedes every
created submenu entry: the context's entries are the first pass's actions
followed by the second pass's submenus, whatever the stored interleaving of
the children.  (The directory children are required not to be
normalized-path-equal to the configured root, which holds for every tree the
scanner builds: their paths strictly extend their parent's.) -/
theorem menu_actions_precede_submenus (fs : FS) (root : String) (fuel : Nat)
    (ch : List TreeNode) (as ss : List MenuEntry)
    (hroot : ∀ c ∈ ch, c.type = NodeType.directory → fs.normpath c.path ≠ fs.normpath root)
    (hmcr : ∃ c ∈ ch, c.type = NodeType.file ∧ hasMcrExt c.path = true)
    (hdir : ∃ c ∈ ch, c.type = NodeType.directory)
    (h1 : firstPass fs ch = some as)
    (h2 : secondPassWith (synthNode fs root fuel) ch = some ss) :
    synthChildren fs root fuel ch = some (as ++ ss) ∧
    (∀ e ∈ as, ∃ tg lab, e = MenuEntry.action tg lab) ∧
    (∀ e ∈ ss, ∃ m inner, e = MenuEntry.submenu m inner) ∧
    ∀ name path, fs.normpath path ≠ fs.normpath root →
      synthNode fs root (fuel+1) (TreeNode.mk name path NodeType.directory ch) =
        some [MenuEntry.submenu name (as ++ ss)] := by
  refine ⟨?_, firstPass_all_actions fs ch as h1,
    secondPass_all_submenus fs root fuel ch ss hroot h2, ?_⟩
  · unfold synthChildren
    rw [h1, h2]
  · intro name path hne
    simp only [synthNode]
    rw [if_neg hne]
    simp only [h1, h2]

theorem menu_actions_precede_submenus_witness :
    synthChildren demoFS "r" 2 demoChildren =
      some ([MenuEntry.action 647394 "PaintTool`Paint"] ++
        [MenuEntry.submenu "Sub" [MenuEntry.action 647394 "EraseTool`Paint"]]) ∧
    (∀ e ∈ [MenuEntry.action 647394 "PaintTool`Paint"],
      ∃ tg lab, e = MenuEntry.action tg lab) ∧
    (∀ e ∈ [MenuEntry.submenu "Sub" [MenuEntry.action 647394 "EraseTool`Paint"]],
      ∃ m inner, e = MenuEntry.submenu m inner) ∧
    ∀ name path, demoFS.normpath path ≠ demoFS.normpath "r" →
      synthNode demoFS "r" 3 (TreeNode.mk name path NodeType.directory demoChildren) =
        some [MenuEntry.submenu name
          ([MenuEntry.action 647394 "PaintTool`Paint"] ++
            [MenuEntry.submenu "Sub" [MenuEntry.action 647394 "EraseTool`Paint"]])] :=
  menu_actions_precede_submenus demoFS "r" 2 demoChildren
    [MenuEntry.action 647394 "PaintTool`Paint"]
    [MenuEntry.submenu "Sub" [MenuEntry.action 647394 "EraseTool`Paint"]]
    (by decide) (by decide) (by decide) (by rfl) (by rfl)

/-- Claim C5: during synthesis of a menu context, a `file` child whose path
ends case-insensitively in `.mcr` and whose descriptor read yields `n` and
`cat` contributes exactly one action — labelled `n`, a literal backtick,
`cat`, with the fixed tag `647394` — when both are non-empty, and no action
otherwise; children that are not `.mcr` files contribute nothing; the first
pass is exactly the childwise concatenation of these contributions. -/
theorem file_children_actions (fs : FS) (c : TreeNode) (n cat : String)
    (hty : c.type = NodeType.file) (hext : hasMcrExt c.path = true)
    (hread : readMacroFile fs c.path "macroScript" "category:" = some (n, cat)) :
    fileAction fs c =
      some (if n ≠ "" ∧ cat ≠ "" then [MenuEntry.action 647394 (n ++ "`" ++ cat)] else []) ∧
    (∀ c' : TreeNode, ¬ (c'.type = NodeType.file ∧ hasMcrExt c'.path = true) →
      fileAction fs c' = some []) ∧
    ∀ ch : List TreeNode, firstPass fs ch = (ch.mapM (fileAction fs)).map List.flatten := by
  refine ⟨?_, ?_, firstPass_eq_mapM fs⟩
  · have hfa : fileAction fs c = if n ≠ "" ∧ cat ≠ "" then
        some [MenuEntry.action 647394 (n ++ "`" ++ cat)] else some [] := by
      unfold fileAction
      rw [if_pos ⟨hty, hext⟩, hread]
    rw [hfa]
    by_cases hn : n ≠ "" ∧ cat ≠ ""
    · rw [if_pos hn, if_pos hn]
    · rw [if_neg hn, if_neg hn]
  · intro c' hc'
    unfold fileAction
    rw [if_neg hc']

theorem file_children_actions_witness :
    fileAction demoFS (TreeNode.mk "a.mcr" "r/a.mcr" NodeType.file []) =
      some (if "PaintTool" ≠ "" ∧ "Paint" ≠ "" then
        [MenuEntry.action 647394 ("PaintTool" ++ "`" ++ "Paint")] else []) ∧
    (∀ c' : TreeNode, ¬ (c'.type = NodeType.file ∧ hasMcrExt c'.path = true) →
      fileAction demoFS c' = some []) ∧
    ∀ ch : List TreeNode,
      firstPass demoFS ch = (ch.mapM (fileAction demoFS)).map List.flatten :=
  file_children_actions demoFS (TreeNode.mk "a.mcr" "r/a.mcr" NodeType.file [])
    "PaintTool" "Paint" (by rfl) (by decide) (by rfl)

/-- The scan terminates with a value whenever every line containing the
start marker has at least two whitespace-delimited tokens. -/
theorem scanLines_total (sm cm : String) : ∀ (ls : List String),
    (∀ l ∈ ls, containsStr l sm = true → 2 ≤ (pySplit l).length) →
    ∀ n c, ∃ nc, scanLines sm cm ls n c = some nc := by
  intro ls
  induction ls with
  | nil => exact fun _ n c => ⟨(n, c), rfl⟩
  | cons l ls ih =>
      intro h n c
      have hrest : ∀ l' ∈ ls, containsStr l' sm = true → 2 ≤ (pySplit l').length :=
        fun l' hl' => h l' (List.mem_cons_of_mem _ hl')
      rw [scanLines]
      by_cases hsm : (containsStr l sm && n == "") = true
      · have hlen : 1 < (pySplit l).length := by
          have := h l (List.mem_cons_self _ _) (Bool.and_elim_left hsm)
          omega
        have hv : (pySplit l)[1]? = some ((pySplit l).get ⟨1, hlen⟩) := by
          rw [List.getElem?_eq_getElem hlen]
          rfl
        rw [if_pos hsm, hv]
        dsimp only
        split <;> split <;>
          first
            | exact ⟨_, rfl⟩
            | exact ih hrest _ _
      · rw [if_neg hsm]
        dsimp only
        split <;> split <;>
          first
            | exact ⟨_, rfl⟩
            | exact ih hrest _ _

/-- Claim C7 counterexample: a descriptor file whose only line is the bare
token `macroScript` makes `read_macro_file` raise `IndexError` from
`line.split()[1]` (modelled as `none`), so the reader is not total. -/
theorem read_macro_crash_counterexample :
    preLines demoFS "bad/one.mcr" = ["macroScript"] ∧
    readMacroFile demoFS "bad/one.mcr" "macroScript" "category:" = none := by
  exact ⟨rfl, rfl⟩

/-- Claim C7 (amended): `read_macro_file` returns a pair of strings, each
defaulting to empty, for every path — including missing files — provided
every non-comment line that contains the start marker has at least two
whitespace-delimited tokens (otherwise `line.split()[1]` raises). -/
theorem read_macro_total_when_tokens (fs : FS) (p sm cm : String)
    (h : ∀ l ∈ preLines fs p, containsStr l sm = true → 2 ≤ (pySplit l).length) :
    ∃ nc, readMacroFile fs p sm cm = some nc := by
  unfold readMacroFile
  by_cases hf : fs.isFile p = true
  · rw [if_pos hf]
    exact scanLines_total sm cm (preLines fs p) h "" ""
  · rw [if_neg hf]
    exact ⟨("", ""), rfl⟩

theorem read_macro_total_when_tokens_witness :
    ∃ nc, readMacroFile demoFS "r/a.mcr" "macroScript" "category:" = some nc :=
  read_macro_total_when_tokens demoFS "r/a.mcr" "macroScript" "category:" (by decide)

/-- Once the running category is non-empty the scan never changes it. -/
theorem scanLines_keeps_cat (sm cm : String) : ∀ (ls : List String) (n0 c0 n' c' : String),
    c0 ≠ "" → scanLines sm cm ls n0 c0 = some (n', c') → c' = c0 := by
  intro ls
  induction ls with
  | nil =>
      intro n0 c0 n' c' _ h
      simp only [scanLines, Option.some.injEq, Prod.mk.injEq] at h
      exact h.2.symm
  | cons l ls ih =>
      intro n0 c0 n' c' hc0 h
      rw [scanLines] at h
      have hbeq : (c0 == "") = false := beq_eq_false_iff_ne.mpr hc0
      cases hname : (if (containsStr l sm && n0 == "") = true then (pySplit l)[1]? else some n0) with
      | none => rw [hname] at h; cases h
      | some n1 =>
          rw [hname] at h
          dsimp only at h
          have hcond : (containsStr l cm && c0 == "" && decide (2 ≤ (splitQuotes l).length)) = false := by
            rw [hbeq]
            simp
          rw [hcond] at h
          simp only [Bool.false_eq_true, if_false] at h
          split at h
          · simp only [Option.some.injEq, Prod.mk.injEq] at h
            exact h.2.symm
          · exact ih n1 c0 n' c' hc0 h

/-- Starting from an empty category, the scan ends with the extraction from
the first marker line yielding non-empty text. -/
theorem scanLines_cat_firstCat (sm cm : String) : ∀ (ls : List String) (n0 n' c' : String),
    scanLines sm cm ls n0 "" = some (n', c') → c' = firstCat cm ls := by
  intro ls
  induction ls with
  | nil =>
      intro n0 n' c' h
      simp only [scanLines, Option.some.injEq, Prod.mk.injEq] at h
      rw [firstCat]
      exact h.2.symm
  | cons l ls ih =>
      intro n0 n' c' h
      rw [scanLines] at h
      cases hname : (if (containsStr l sm && n0 == "") = true then (pySplit l)[1]? else some n0) with
      | none => rw [hname] at h; cases h
      | some n1 =>
          rw [hname] at h
          dsimp only at h
          have hsimp : (containsStr l cm && ("" == "") && decide (2 ≤ (splitQuotes l).length))
              = (containsStr l cm && decide (2 ≤ (splitQuotes l).length)) := by simp
          rw [hsimp] at h
          by_cases hA : containsStr l cm = true ∧ catOfLine l ≠ ""
          · have hlen : 2 ≤ (splitQuotes l).length := by
              by_contra hlen
              exact hA.2 (by unfold catOfLine; rw [if_neg hlen])
            have hcat : catOfLine l = (splitQuotes l).getD 1 "" := by
              unfold catOfLine
              rw [if_pos hlen]
            have hc1 : (if (containsStr l cm && decide (2 ≤ (splitQuotes l).length)) = true
                then (splitQuotes l).getD 1 "" else "") = catOfLine l := by
              rw [hA.1, hcat]
              simp [hlen]
            rw [hc1] at h
            rw [firstCat, if_pos hA]
            split at h
            · simp only [Option.some.injEq, Prod.mk.injEq] at h
              exact h.2.symm
            · exact scanLines_keeps_cat sm cm ls n1 (catOfLine l) n' c' hA.2 h
          · have hc1 : (if (containsStr l cm && decide (2 ≤ (splitQuotes l).length)) = true
                then (splitQuotes l).getD 1 "" else "") = "" := by
              by_cases hcm : containsStr l cm = true
              · have hcat : catOfLine l = "" := by
                  by_contra hne
                  exact hA ⟨hcm, hne⟩
                by_cases hlen : 2 ≤ (splitQuotes l).length
                · have hcond : (containsStr l cm && decide (2 ≤ (splitQuotes l).length)) = true := by
                    rw [hcm, decide_eq_true hlen]
                    rfl
                  rw [if_pos hcond]
                  have hg : (splitQuotes l).getD 1 "" = catOfLine l := by
                    unfold catOfLine
                    rw [if_pos hlen]
                  rw [hg, hcat]
                · rw [hcm]
                  simp [hlen]
              · have hf : containsStr l cm = false := by
                  cases hv : containsStr l cm
                  · rfl
                  · exact absurd hv hcm
                rw [hf]
                simp
            rw [hc1] at h
            rw [firstCat, if_neg hA]
            split at h
            · rename_i hcond2
              simp at hcond2
            · exact ih n1 n' c' h

/-- Claim C6 counterexample: the first line containing the category marker
(`category: none`) has no double quote at all, yet a category (`Bar`) is
extracted — from a later line that has only a single double quote, not a
pair.  The claim's "first marker line" and "must contain a pair of double
quotes" clauses both fail on the code. -/
theorem category_single_quote_counterexample :
    preLines demoFS "bad/c6.mcr" = ["category: none", "category: \"Bar"] ∧
    containsStr "category: none" "category:" = true ∧
    "category: none".data.count '"' = 0 ∧
    "category: \"Bar".data.count '"' = 1 ∧
    readMacroFile demoFS "bad/c6.mcr" "macroScript" "category:" = some ("", "Bar") := by
  decide

/-- Claim C6 (amended): the category returned by `read_macro_file` is the
text extracted from the first non-comment line that contains the category
marker and at least one double quote and yields non-empty text between its
first and second quote (to end of line when there is only one quote); once
non-empty it is never overwritten by later matches. -/
theorem category_first_match (fs : FS) (p n c : String)
    (h : readMacroFile fs p "macroScript" "category:" = some (n, c)) :
    c = (if fs.isFile p = true then firstCat "category:" (preLines fs p) else "") ∧
    ∀ (sm cm : String) (ls : List String) (n0 c0 n' c' : String), c0 ≠ "" →
      scanLines sm cm ls n0 c0 = some (n', c') → c' = c0 := by
  refine ⟨?_, fun sm cm ls n0 c0 n' c' => scanLines_keeps_cat sm cm ls n0 c0 n' c'⟩
  unfold readMacroFile at h
  by_cases hf : fs.isFile p = true
  · rw [if_pos hf] at h
    rw [if_pos hf]
    exact scanLines_cat_firstCat "macroScript" "category:" (preLines fs p) "" n c h
  · rw [if_neg hf] at h
    rw [if_neg hf]
    simp only [Option.some.injEq, Prod.mk.injEq] at h
    exact h.2.symm

theorem category_first_match_witness :
    ("Bar" : String) =
      (if demoFS.isFile "bad/c6.mcr" = true then
        firstCat "category:" (preLines demoFS "bad/c6.mcr") else "") ∧
    ∀ (sm cm : String) (ls : List String) (n0 c0 n' c' : String), c0 ≠ "" →
      scanLines sm cm ls n0 c0 = some (n', c') → c' = c0 :=
  category_first_match demoFS "bad/c6.mcr" "" "Bar" (by rfl)

/-- Claim C4 counterexample: in `do macroScript Foo` the token `macroScript`
is followed by `Foo` as the next whitespace-delimited token (indices 1 and 2
of `split()`), yet the reader returns the line's second token `macroScript`,
not `Foo`: the name is `split()[1]` of the first line containing the marker,
not the token following the marker. -/
theorem read_macro_next_token_counterexample :
    preLines demoFS "bad/c4.mcr" = ["do macroScript Foo", "category: \"Bar\""] ∧
    (pySplit "do macroScript Foo")[1]? = some "macroScript" ∧
    (pySplit "do macroScript Foo")[2]? = some "Foo" ∧
    readMacroFile demoFS "bad/c4.mcr" "macroScript" "category:" = some ("macroScript", "Bar") ∧
    ("macroScript", "Bar") ≠ (("Foo" : String), ("Bar" : String)) := by
  decide

/-- Claim C4 (amended): for a file whose non-comment lines are exactly a
name line `A` and a category line `B`, in either order (comment lines are
already dropped by the preprocessing), the reader returns the *second
whitespace-delimited token* of `A` (not the token following `macroScript`)
and the text after the first double quote of `B` — provided each line
contains only its own marker and both extractions are non-empty. -/
theorem read_macro_two_line_roundtrip (fs : FS) (p A B n c : String)
    (hfile : fs.isFile p = true)
    (hlines : preLines fs p = [A, B] ∨ preLines fs p = [B, A])
    (hAsm : containsStr A "macroScript" = true)
    (hAcm : containsStr A "category:" = false)
    (hBsm : containsStr B "macroScript" = false)
    (hBcm : containsStr B "category:" = true)
    (hname : (pySplit A)[1]? = some n) (hn : n ≠ "")
    (hq : 2 ≤ (splitQuotes B).length)
    (hcat : (splitQuotes B).getD 1 "" = c) (hc : c ≠ "") :
    readMacroFile fs p "macroScript" "category:" = some (n, c) := by
  have hnT : (n != "") = true := by simp [hn]
  have hcT : (c != "") = true := by simp [hc]
  unfold readMacroFile
  rw [if_pos hfile]
  cases hlines with
  | inl hl =>
      rw [hl, scanLines]
      have h1 : (containsStr A "macroScript" && ("" == "")) = true := by
        rw [hAsm]
        rfl
      rw [if_pos h1, hname]
      dsimp only
      have h2 : (containsStr A "category:" && ("" == "") &&
          decide (2 ≤ (splitQuotes A).length)) = false := by
        rw [hAcm]
        rfl
      rw [h2]
      simp only [Bool.false_eq_true, if_false]
      have h3 : (n != "" && ("" != "")) = false := by
        simp
      rw [h3]
      simp only [Bool.false_eq_true, if_false]
      rw [scanLines]
      have h4 : (containsStr B "macroScript" && (n == "")) = false := by
        rw [hBsm]
        rfl
      rw [h4]
      simp only [Bool.false_eq_true, if_false]
      have h5 : (containsStr B "category:" && ("" == "") &&
          decide (2 ≤ (splitQuotes B).length)) = true := by
        rw [hBcm, decide_eq_true hq]
        rfl
      rw [if_pos h5, hcat]
      have h6 : (n != "" && c != "") = true := by
        rw [hnT, hcT]
        rfl
      rw [if_pos h6]
  | inr hl =>
      rw [hl, scanLines]
      have h1 : (containsStr B "macroScript" && ("" == "")) = false := by
        rw [hBsm]
        rfl
      rw [h1]
      simp only [Bool.false_eq_true, if_false]
      have h2 : (containsStr B "category:" && ("" == "") &&
          decide (2 ≤ (splitQuotes B).length)) = true := by
        rw [hBcm, decide_eq_true hq]
        rfl
      rw [if_pos h2, hcat]
      have h3 : (("" != "") && c != "") = false := by
        simp
      rw [h3]
      simp only [Bool.false_eq_true, if_false]
      rw [scanLines]
      have h4 : (containsStr A "macroScript" && ("" == "")) = true := by
        rw [hAsm]
        rfl
      rw [if_pos h4, hname]
      dsimp only
      have h5 : (containsStr A "category:" && (c == "") &&
          decide (2 ≤ (splitQuotes A).length)) = false := by
        rw [hAcm]
        rfl
      rw [h5]
      simp only [Bool.false_eq_true, if_false]
      have h6 : (n != "" && c != "") = true := by
        rw [hnT, hcT]
        rfl
      rw [if_pos h6]

theorem read_macro_two_line_roundtrip_witness :
    readMacroFile demoFS "bad/rev.mcr" "macroScript" "category:" = some ("Foo", "Bar") :=
  read_macro_two_line_roundtrip demoFS "bad/rev.mcr" "macroScript Foo" "category: \"Bar\""
    "Foo" "Bar" (by decide) (Or.inr (by decide)) (by decide) (by decide) (by decide)
    (by decide) (by decide) (by decide) (by decide) (by decide) (by decide)

/-! ### Tree-builder ordering (claim C3) -/

theorem dropWhile_head_false {α : Type} {P : α → Bool} (xs : List α)
    (h : ∀ c ∈ xs, P c = false) : xs.dropWhile P = xs := by
  cases xs with
  | nil => rfl
  | cons x t =>
      rw [List.dropWhile_cons, h x (List.mem_cons_self _ _)]
      simp

theorem takeWhile_all_true {α : Type} {P : α → Bool} :
    ∀ (xs : List α), (∀ c ∈ xs, P c = true) → xs.takeWhile P = xs := by
  intro xs
  induction xs with
  | nil => intro; rfl
  | cons x t ih =>
      intro h
      rw [List.takeWhile_cons, h x (List.mem_cons_self _ _), if_pos rfl,
        ih (fun c hc => h c (List.mem_cons_of_mem _ hc))]

theorem takeWhile_append_all {α : Type} {P : α → Bool} :
    ∀ (xs ys : List α), (∀ c ∈ xs, P c = true) →
      (xs ++ ys).takeWhile P = xs ++ ys.takeWhile P := by
  intro xs
  induction xs with
  | nil => intro ys _; rfl
  | cons x t ih =>
      intro ys h
      rw [List.cons_append, List.takeWhile_cons, h x (List.mem_cons_self _ _), if_pos rfl,
        ih ys (fun c hc => h c (List.mem_cons_of_mem _ hc)), List.cons_append]

/-- Stripping trailing separators and then taking the final segment of a
path `q ++ name`, where `q` ends in a separator and `name` is a plain entry
name, recovers exactly `name` (stated on reversed character lists as used by
`rstripSeps` and `basename`). -/
theorem stripSeps_core (q idata : List Char)
    (hq : isSep (q.reverse.headD 'x') = true) (hqne : q ≠ [])
    (hne : idata ≠ []) (hns : ∀ c ∈ idata, isSep c = false) :
    (((q ++ idata).reverse.dropWhile isSep).takeWhile (fun c => !isSep c)).reverse = idata := by
  obtain ⟨x, xs, hx⟩ : ∃ x xs, idata.reverse = x :: xs := by
    cases hrev : idata.reverse with
    | nil => exact absurd (List.reverse_eq_nil_iff.mp hrev) hne
    | cons x xs => exact ⟨x, xs, rfl⟩
  obtain ⟨b, bt, hb⟩ : ∃ b bt, q.reverse = b :: bt := by
    cases hrev : q.reverse with
    | nil => exact absurd (List.reverse_eq_nil_iff.mp hrev) hqne
    | cons b bt => exact ⟨b, bt, rfl⟩
  have hmemrev : ∀ c ∈ idata.reverse, isSep c = false :=
    fun c hc => hns c (List.mem_reverse.mp hc)
  have hx2 : isSep x = false := hmemrev x (by rw [hx]; exact List.mem_cons_self _ _)
  have hxs : ∀ c ∈ xs, isSep c = false :=
    fun c hc => hmemrev c (by rw [hx]; exact List.mem_cons_of_mem _ hc)
  have hbsep : isSep b = true := by
    rw [hb] at hq
    exact hq
  rw [List.reverse_append, hx, hb, List.cons_append, List.dropWhile_cons, hx2]
  simp only [Bool.false_eq_true, if_false]
  rw [List.takeWhile_cons]
  have hxT : (!isSep x) = true := by rw [hx2]; rfl
  rw [hxT, if_pos rfl, takeWhile_append_all xs (b :: bt) (fun c hc => by rw [hxs c hc]; rfl),
    List.takeWhile_cons]
  have hbF : (!isSep b) = false := by rw [hbsep]; rfl
  rw [hbF]
  simp only [Bool.false_eq_true, if_false, List.append_nil]
  rw [← hx, List.reverse_reverse]

/-- Variant of `stripSeps_core` with no leading directory part. -/
theorem stripSeps_plain (idata : List Char) (hne : idata ≠ [])
    (hns : ∀ c ∈ idata, isSep c = false) :
    ((idata.reverse.dropWhile isSep).takeWhile (fun c => !isSep c)).reverse = idata := by
  obtain ⟨x, xs, hx⟩ : ∃ x xs, idata.reverse = x :: xs := by
    cases hrev : idata.reverse with
    | nil => exact absurd (List.reverse_eq_nil_iff.mp hrev) hne
    | cons x xs => exact ⟨x, xs, rfl⟩
  have hmemrev : ∀ c ∈ idata.reverse, isSep c = false :=
    fun c hc => hns c (List.mem_reverse.mp hc)
  have hx2 : isSep x = false := hmemrev x (by rw [hx]; exact List.mem_cons_self _ _)
  have hxs : ∀ c ∈ xs, isSep c = false :=
    fun c hc => hmemrev c (by rw [hx]; exact List.mem_cons_of_mem _ hc)
  rw [hx, List.dropWhile_cons, hx2]
  simp only [Bool.false_eq_true, if_false]
  rw [List.takeWhile_cons]
  have hxT : (!isSep x) = true := by rw [hx2]; rfl
  rw [hxT, if_pos rfl, takeWhile_all_true xs (fun c hc => by rw [hxs c hc]; rfl), ← hx,
    List.reverse_reverse]

theorem mk_ne_empty (idata : List Char) (hne : idata ≠ []) : String.mk idata ≠ "" :=
  fun h => hne (congrArg String.data h)

/-- `basename (rstrip (q ++ name))` recovers a plain entry name appended
after a separator-terminated directory part. -/
theorem basename_rstrip_sep (q idata : List Char)
    (hq : isSep (q.reverse.headD 'x') = true) (hqne : q ≠ [])
    (hne : idata ≠ []) (hns : ∀ c ∈ idata, isSep c = false) :
    basename (rstripSeps (String.mk (q ++ idata))) = String.mk idata := by
  show String.mk
      (((((q ++ idata).reverse.dropWhile isSep).reverse).reverse.takeWhile
        (fun c => !isSep c)).reverse) = String.mk idata
  rw [List.reverse_reverse]
  exact congrArg String.mk (stripSeps_core q idata hq hqne hne hns)

theorem basename_rstrip_plain (idata : List Char) (hne : idata ≠ [])
    (hns : ∀ c ∈ idata, isSep c = false) :
    basename (rstripSeps (String.mk idata)) = String.mk idata := by
  show String.mk
      ((((idata.reverse.dropWhile isSep).reverse).reverse.takeWhile
        (fun c => !isSep c)).reverse) = String.mk idata
  rw [List.reverse_reverse]
  exact congrArg String.mk (stripSeps_plain idata hne hns)

theorem nodeName_sep (q idata : List Char)
    (hq : isSep (q.reverse.headD 'x') = true) (hqne : q ≠ [])
    (hne : idata ≠ []) (hns : ∀ c ∈ idata, isSep c = false) :
    nodeName (String.mk (q ++ idata)) = String.mk idata := by
  unfold nodeName
  rw [basename_rstrip_sep q idata hq hqne hne hns, if_neg (mk_ne_empty idata hne)]

theorem nodeName_plain (idata : List Char) (hne : idata ≠ [])
    (hns : ∀ c ∈ idata, isSep c = false) :
    nodeName (String.mk idata) = String.mk idata := by
  unfold nodeName
  rw [basename_rstrip_plain idata hne hns, if_neg (mk_ne_empty idata hne)]

/-- Joining a directory path with a plain entry name and taking the node
name recovers the entry name. -/
theorem nodeName_joinPath (p i : String) (hi : validNameB i = true) :
    nodeName (joinPath p i) = i := by
  obtain ⟨idata⟩ := i
  unfold validNameB at hi
  rw [Bool.and_eq_true] at hi
  obtain ⟨hne0, hall⟩ := hi
  have hne : idata ≠ [] := by
    cases idata with
    | nil => cases hne0
    | cons x t => exact fun h => List.noConfusion h
  have hns : ∀ c ∈ idata, isSep c = false := by
    intro c hc
    have := List.all_eq_true.mp hall c hc
    cases hv : isSep c
    · rfl
    · rw [hv] at this; cases this
  obtain ⟨x, xs, hx⟩ : ∃ x xs, idata = x :: xs := by
    cases idata with
    | nil => exact absurd rfl hne
    | cons x xs => exact ⟨x, xs, rfl⟩
  unfold joinPath
  by_cases hp : p.data.isEmpty = true
  · rw [if_pos hp]
    exact nodeName_plain idata hne hns
  · rw [if_neg hp]
    have hhead : isSep ((String.mk idata).data.headD 'x') = false := by
      rw [hx]
      exact hns x (by rw [hx]; exact List.mem_cons_self _ _)
    rw [if_neg (by rw [hhead]; exact Bool.false_ne_true)]
    have hpne : p.data ≠ [] := by
      cases hv : p.data with
      | nil => rw [hv] at hp; exact absurd rfl hp
      | cons a t => exact fun h => List.noConfusion h
    by_cases hsep : isSep (p.data.reverse.headD 'x') = true
    · rw [if_pos hsep]
      exact nodeName_sep p.data idata hsep hpne hne hns
    · rw [if_neg hsep]
      have hq : isSep ((p.data ++ ['/']).reverse.headD 'x') = true := by
        rw [List.reverse_append]
        rfl
      have hqne : p.data ++ ['/'] ≠ [] := by
        simp
      have hrw : p.data ++ '/' :: idata = (p.data ++ ['/']) ++ idata := by
        rw [List.append_assoc]
        rfl
      rw [hrw]
      exact nodeName_sep (p.data ++ ['/']) idata hq hqne hne hns

/-- The name stored in a built node is `nodeName` of its path. -/
theorem buildTree_name (fs : FS) (fuel : Nat) (p : String) :
    (buildTree fs fuel p).name = nodeName p := by
  cases fuel <;> rfl

theorem pySorted_perm (l : List String) : (pySorted l).Perm l :=
  List.perm_insertionSort _ l

theorem pySorted_sorted (l : List String) :
    List.Sorted (fun a b => a.data ≤ b.data) (pySorted l) :=
  List.sorted_insertionSort _ l

/-- On a duplicate-free listing the sort is strictly increasing. -/
theorem pySorted_strict (l : List String) (h : l.Nodup) :
    List.Pairwise (fun a b => a.data < b.data) (pySorted l) := by
  have hnd : (pySorted l).Nodup := ((pySorted_perm l).nodup_iff).mpr h
  have hs := pySorted_sorted l
  refine (List.Pairwise.and hs hnd).imp ?_
  intro a b hab
  refine lt_of_le_of_ne hab.1 ?_
  intro hdeq
  apply hab.2
  cases a
  cases b
  cases hdeq
  rfl

theorem strictChainB_iff : ∀ l : List String,
    strictChainB l = true ↔ List.Chain' (fun a b : String => a.data < b.data) l
  | [] => by simp [strictChainB]
  | [_] => by simp [strictChainB]
  | a :: b :: t => by
      rw [strictChainB, List.chain'_cons, Bool.and_eq_true, decide_eq_true_eq]
      exact and_congr_right (fun _ => strictChainB_iff (b :: t))

/-- The names of the children built for a directory are exactly the sorted
listing. -/
theorem buildTree_children_names (fs : FS) (fuel : Nat) (p : String)
    (hdir : fs.isDir p = true)
    (hvalid : ∀ i ∈ fs.listdir p, validNameB i = true) :
    (buildTree fs (fuel+1) p).children.map TreeNode.name = pySorted (fs.listdir p) := by
  have hch : (buildTree fs (fuel+1) p).children =
      (pySorted (fs.listdir p)).map (fun item => buildTree fs fuel (joinPath p item)) := by
    rw [buildTree]
    show (if fs.isDir p = true then _ else []) = _
    rw [if_pos hdir]
  rw [hch, List.map_map]
  have : ∀ i ∈ pySorted (fs.listdir p),
      (TreeNode.name ∘ fun item => buildTree fs fuel (joinPath p item)) i = id i := by
    intro i hi
    have hmem : i ∈ fs.listdir p := (pySorted_perm (fs.listdir p)).mem_iff.mp hi
    show (buildTree fs fuel (joinPath p i)).name = i
    rw [buildTree_name, nodeName_joinPath p i (hvalid i hmem)]
  rw [List.map_congr_left this, List.map_id]

/-- Every level of a built tree has strictly name-sorted children. -/
theorem buildTree_sortedNames (fs : FS) (hfs : ValidFS fs) :
    ∀ (k fuel : Nat) (p : String), sortedNamesB k (buildTree fs fuel p) = true := by
  intro k
  induction k with
  | zero => intro fuel p; cases fuel <;> rfl
  | succ k ih =>
      intro fuel p
      cases fuel with
      | zero =>
          cases hv : fs.isDir p <;> simp [buildTree, sortedNamesB, hv, strictChainB]
      | succ fuel =>
          by_cases hd : fs.isDir p = true
          · have hchain : strictChainB
                ((buildTree fs (fuel+1) p).children.map TreeNode.name) = true := by
              rw [buildTree_children_names fs fuel p hd (fun i hi => (hfs p).2 i hi)]
              exact (strictChainB_iff _).mpr
                (List.Pairwise.chain' (pySorted_strict (fs.listdir p) (hfs p).1))
            have hall : ∀ c ∈ (buildTree fs (fuel+1) p).children, sortedNamesB k c = true := by
              intro c hc
              have hch : (buildTree fs (fuel+1) p).children =
                  (pySorted (fs.listdir p)).map (fun item => buildTree fs fuel (joinPath p item)) := by
                rw [buildTree]
                show (if fs.isDir p = true then _ else []) = _
                rw [if_pos hd]
              rw [hch] at hc
              obtain ⟨i, _, hi2⟩ := List.mem_map.mp hc
              rw [← hi2]
              exact ih fuel (joinPath p i)
            show sortedNamesB (k+1) (buildTree fs (fuel+1) p) = true
            obtain ⟨nm, pa, t, ch, hbt⟩ : ∃ nm pa t ch,
                buildTree fs (fuel+1) p = TreeNode.mk nm pa t ch :=
              ⟨_, _, _, _, rfl⟩
            rw [hbt] at hchain hall ⊢
            rw [sortedNamesB, Bool.and_eq_true]
            exact ⟨hchain, List.all_eq_true.mpr (fun c hc => hall c hc)⟩
          · have hb : fs.isDir p = false := by
              cases hv : fs.isDir p
              · rfl
              · exact absurd hv hd
            rw [buildTree_not_dir fs (fuel+1) p hb]
            rw [sortedNamesB]
            rfl

/-- Claim C3: for a directory, `_build_tree` yields a `directory` node with
exactly one child per entry of the listing; the children are the recursive
builds at the joined paths of the sorted listing, their names are exactly
the sorted listing and are strictly increasing in lexicographic order; and
the same holds recursively at every level (`sortedNamesB` at every depth).
Listings are assumed duplicate-free with plain entry names, as `os.listdir`
returns. -/
theorem build_tree_children_sorted (fs : FS) (fuel : Nat) (path : String)
    (hdir : fs.isDir path = true) (hvalid : ValidFS fs) :
    (buildTree fs (fuel+1) path).type = NodeType.directory ∧
    (buildTree fs (fuel+1) path).children.length = (fs.listdir path).length ∧
    (buildTree fs (fuel+1) path).children =
      (pySorted (fs.listdir path)).map (fun item => buildTree fs fuel (joinPath path item)) ∧
    (buildTree fs (fuel+1) path).children.map TreeNode.name = pySorted (fs.listdir path) ∧
    List.Chain' (fun a b : String => a.data < b.data)
      ((buildTree fs (fuel+1) path).children.map TreeNode.name) ∧
    ∀ k, sortedNamesB k (buildTree fs (fuel+1) path) = true := by
  have hch : (buildTree fs (fuel+1) path).children =
      (pySorted (fs.listdir path)).map (fun item => buildTree fs fuel (joinPath path item)) := by
    rw [buildTree]
    show (if fs.isDir path = true then _ else []) = _
    rw [if_pos hdir]
  have hnames := buildTree_children_names fs fuel path hdir (fun i hi => (hvalid path).2 i hi)
  refine ⟨?_, ?_, hch, hnames, ?_, fun k => buildTree_sortedNames fs hvalid k (fuel+1) path⟩
  · rw [buildTree]
    show (if fs.isDir path = true then NodeType.directory else NodeType.file) = _
    rw [if_pos hdir]
  · rw [hch, List.length_map]
    exact (pySorted_perm (fs.listdir path)).length_eq
  · rw [hnames]
    exact List.Pairwise.chain' (pySorted_strict (fs.listdir path) (hvalid path).1)

/-- The demo filesystem has duplicate-free listings of plain names. -/
theorem demoFS_valid : ValidFS demoFS := by
  intro p
  constructor
  · show (if p = "r" then ["a.mcr", "Sub"] else if p = "r/Sub" then ["b.mcr"] else []).Nodup
    split_ifs <;> decide
  · show ∀ i ∈ (if p = "r" then ["a.mcr", "Sub"] else if p = "r/Sub" then ["b.mcr"] else []),
      validNameB i = true
    split_ifs <;> decide

theorem build_tree_children_sorted_witness :
    (buildTree demoFS 2 "r").type = NodeType.directory ∧
    (buildTree demoFS 2 "r").children.length = (demoFS.listdir "r").length ∧
    (buildTree demoFS 2 "r").children =
      (pySorted (demoFS.listdir "r")).map (fun item => buildTree demoFS 1 (joinPath "r" item)) ∧
    (buildTree demoFS 2 "r").children.map TreeNode.name = pySorted (demoFS.listdir "r") ∧
    List.Chain' (fun a b : String => a.data < b.data)
      ((buildTree demoFS 2 "r").children.map TreeNode.name) ∧
    ∀ k, sortedNamesB k (buildTree demoFS 2 "r") = true :=
  build_tree_children_sorted demoFS 1 "r" (by rfl) demoFS_valid

end MenuGen
